import Mathlib

/-!
Verification of the hicstuff distance-law engine (src/hicstuff/distance_law.py).

This file gives a shallow embedding, in Lean 4, of the functions of the
distance-law computation engine that the frozen claims refer to:

* `get_chr_segment_bins_index` (SegmentIndexer, no-centromere branch),
* `logbins_xs` / `logbinsSegment` (LogBinner),
* `circular_distance_law` (circular distance folding),
* `get_pairs_distance` (PairClassifier),
* `normalize_distance_law` (CurveAggregator.Normalize),
* the in-place zero replacement of `slope_distance_law` (CurveAggregator.Slope).

Python/numpy semantics are modelled explicitly: Python list indexing wraps
negative indices (`pyGet`/`pySet`), pandas Series label lookup does not
(`seriesGet`), `np.searchsorted(a, v, side="right")` on a sorted array is the
count of entries less than or equal to `v` (`searchsortedRight`), `np.unique`
sorts and removes duplicates (`npUnique`), and fallible code paths (crashes,
`sys.exit`) are modelled with `Option` (`none` = the process aborts with no
output).  Machine floats of the source are modelled with exact rationals `ℚ`.
-/

/-- Resolve a Python sequence index of length `n`: nonnegative indices are used
as is, negative indices wrap around from the end, anything else raises
(`none`). -/
def pyIdx (n : ℕ) (i : ℤ) : Option ℕ :=
  if 0 ≤ i ∧ i < (n : ℤ) then some i.toNat
  else if -(n : ℤ) ≤ i ∧ i < 0 then some (i + (n : ℤ)).toNat
  else none

/-- Python list read `l[i]`, with negative-index wraparound. -/
def pyGet {α : Type} (l : List α) (i : ℤ) : Option α :=
  (pyIdx l.length i).bind fun j => l.get? j

/-- Python list write `l[i] = a`, with negative-index wraparound. -/
def pySet {α : Type} (l : List α) (i : ℤ) (a : α) : Option (List α) :=
  (pyIdx l.length i).map fun j => l.set j a

/-- pandas Series lookup by integer label (`fragments["start_pos"][k]`):
the default RangeIndex makes label `k` the `k`-th row, and a negative or
out-of-range label raises a KeyError (`none`).  No negative wraparound. -/
def seriesGet {α : Type} (l : List α) (i : ℤ) : Option α :=
  if 0 ≤ i ∧ i < (l.length : ℤ) then l.get? i.toNat else none

/-- Model of `np.searchsorted(a, v, side="right")` for a sorted array `a`:
the number of entries that are `≤ v` (the rightmost insertion point).
All call sites in the source pass sorted arrays, as numpy requires. -/
def searchsortedRight (l : List ℚ) (v : ℚ) : ℕ :=
  l.countP fun x => decide (x ≤ v)

/-- Translation of `circular_distance_law` (src/hicstuff/distance_law.py,
lines 249-281): fold a genomic distance on a circular chromosome whose length
is `chr_segment_length[chr_bin]`; distances beyond half the circumference are
replaced by `chr_len - distance`.  The list access uses Python list indexing. -/
def circular_distance_law (distance : ℚ) (chr_segment_length : List ℚ)
    (chr_bin : ℤ) : Option ℚ :=
  (pyGet chr_segment_length chr_bin).map fun chr_len =>
    if distance > chr_len / 2 then chr_len - distance else distance

/-- One row of the fragment table (`fragments_list.txt`): id, chromosome
name, start position (0-based inclusive), end position (exclusive). -/
structure FragRow where
  id : ℤ
  chrom : String
  start_pos : ℤ
  end_pos : ℤ

/-- One parsed line of the pairs file, the `OrderedDict` of
`csv.DictReader` in `get_distance_law`: readID, chr1, pos1, chr2, pos2,
strand1, strand2, frag1, frag2 (frag fields already converted with `int`). -/
structure PairLine where
  readID : String
  chr1 : String
  pos1 : ℤ
  chr2 : String
  pos2 : ℤ
  strand1 : String
  strand2 : String
  frag1 : ℤ
  frag2 : ℤ

/-- Segment resolution of a fragment index (src lines 323-328):
`np.searchsorted(chr_segment_bins, frag, side="right") - 1`. -/
def fragSeg (chr_segment_bins : List ℚ) (frag : ℤ) : ℤ :=
  (searchsortedRight chr_segment_bins (frag : ℚ) : ℤ) - 1

/-- The tail of `get_pairs_distance` for a kept pair (src lines 347-353):
optional circular folding of the distance `d0`, then
`ps_indice = np.searchsorted(xs_temp, distance, side="right") - 1` and
`ps[chr_bin1][ps_indice] += 1`, with Python list indexing (so a negative
`ps_indice` wraps around from the end of the list). -/
def tally (chr_segment_length : List ℚ) (xs : List (List ℚ))
    (ps : List (List ℤ)) (circular : Bool) (chr_bin : ℤ) (d0 : ℚ) :
    Option (List (List ℤ)) := do
  let d ← if circular then circular_distance_law d0 chr_segment_length chr_bin
          else some d0
  let xs_temp ← pyGet xs chr_bin
  let ps_indice : ℤ := (searchsortedRight xs_temp d : ℤ) - 1
  let psRow ← pyGet ps chr_bin
  let cur ← pyGet psRow ps_indice
  let psRow2 ← pySet psRow ps_indice (cur + 1)
  pySet ps chr_bin psRow2

/-- Translation of `get_pairs_distance` (src lines 284-353).  A pair is
processed only when `strand1 == strand2`; both fragments must resolve to the
same segment; the distance is the absolute difference of the two start
positions when both strands are minus and of the two end positions when both
are plus (pandas label lookups); same-strand pairs with any other strand
string leave `distance` unbound, a crash (`none`).  The function returns the
updated `ps` (`some ps` unchanged when the pair is filtered out). -/
def get_pairs_distance (line : PairLine) (fragments : List FragRow)
    (chr_segment_bins : List ℚ) (chr_segment_length : List ℚ)
    (xs : List (List ℚ)) (ps : List (List ℤ)) (circular : Bool) :
    Option (List (List ℤ)) :=
  if line.strand1 = line.strand2 then
    let chr_bin1 := fragSeg chr_segment_bins line.frag1
    let chr_bin2 := fragSeg chr_segment_bins line.frag2
    if chr_bin1 = chr_bin2 then
      let distOpt : Option ℚ :=
        if line.strand1 = "-" then do
          let a ← seriesGet (fragments.map FragRow.start_pos) line.frag1
          let b ← seriesGet (fragments.map FragRow.start_pos) line.frag2
          pure |(a : ℚ) - (b : ℚ)|
        else if line.strand1 = "+" then do
          let a ← seriesGet (fragments.map FragRow.end_pos) line.frag1
          let b ← seriesGet (fragments.map FragRow.end_pos) line.frag2
          pure |(a : ℚ) - (b : ℚ)|
        else none
      distOpt.bind (tally chr_segment_length xs ps circular chr_bin1)
    else some ps
  else some ps

/-- Model of `np.shape` on a two-level nested Python list: a rectangular
list of lists (all inner lengths equal) has shape `(rows, cols)`, a ragged
one collapses to shape `(rows,)` (numpy builds an object array). -/
def pyShape (l : List (List ℚ)) : List ℕ :=
  match l with
  | [] => [0]
  | x :: rest =>
    if rest.all (fun y => y.length == x.length) then [rest.length + 1, x.length]
    else [rest.length + 1]

/-- The length of the shortest curve: `len(min(xs, key=len))`
(src line 520). -/
def min_xs (xs : List (List ℚ)) : ℕ :=
  ((xs.map List.length).min?).getD 0

/-- The normalization sum of one curve (src lines 524-529): sum of
`ps[j][i]` over the indices `i` of `ps[j]` with `xs[j][i] > 1000` and
`i < min_xs`. -/
def windowSum (xsj psj : List ℚ) (m : ℕ) : ℚ :=
  ∑ i ∈ Finset.range psj.length,
    if 1000 < xsj.getD i 0 ∧ i < m then psj.getD i 0 else 0

/-- The per-curve normalization loop of `normalize_distance_law`
(src lines 521-538): each curve is divided by its window sum, with a sum of
exactly zero bumped to 1 (`sum_values += 1`, plus a warning) so the curve is
left unnormalized rather than divided by zero. -/
def normalizePure (xs ps : List (List ℚ)) (m : ℕ) : List (List ℚ) :=
  (List.range ps.length).map fun j =>
    let psj := ps.getD j []
    let s := windowSum (xs.getD j []) psj m
    let s2 := if s = 0 then s + 1 else s
    psj.map fun v => v / s2

/-- Translation of `normalize_distance_law` (src lines 493-539).
`none` models the process producing no output: the explicit
`sys.exit(1)` when `np.shape(xs) != np.shape(ps)`, the `ValueError` of
`min([])` on an empty batch, and the `IndexError` when some curve `ps[j]`
is longer than its bin list `xs[j]` (the loop reads `xs[j][i]` for every
index `i` of `ps[j]`). -/
def normalize_distance_law (xs ps : List (List ℚ)) : Option (List (List ℚ)) :=
  if pyShape xs = pyShape ps then
    if xs.isEmpty then none
    else if (List.range ps.length).all
        (fun j => decide ((ps.getD j []).length ≤ (xs.getD j []).length)) then
      some (normalizePure xs ps (min_xs xs))
    else none
  else none

/-- The effect of `slope_distance_law` on its input `ps`
(src lines 595-597): the loop `for i in range(len(ps))` executes the
in-place masked assignment `ps[i][ps[i] == 0] = 10 ** (-9)` on the caller's
arrays, replacing every zero entry by 1e-9.  The slope values the function
returns (numpy log ratios smoothed with a Gaussian filter) do not touch
`ps` further and are not needed by any claim. -/
def slope_distance_law_ps (ps : List (List ℚ)) : List (List ℚ) :=
  (List.range ps.length).foldl
    (fun acc i =>
      acc.set i ((acc.getD i []).map fun v => if v = 0 then 1 / 10 ^ 9 else v))
    ps

/-- The number of zero cells of one fragment row: the comparison
`fragments == 0` of `get_chr_segment_bins_index` (src line 121) tests every
cell of the row (`id`, `chrom`, `start_pos`, `end_pos`); the string column
`chrom` never compares equal to the integer 0 in pandas. -/
def rowZeroCount (r : FragRow) : ℕ :=
  (if r.id = 0 then 1 else 0) + (if r.start_pos = 0 then 1 else 0) +
    (if r.end_pos = 0 then 1 else 0)

/-- Row-major scan of `np.where(fragments == 0)[0]`: each row index is
emitted once per zero cell of the row, rows in order. -/
def whereZeroAux (j : ℕ) : List FragRow → List ℕ
  | [] => []
  | r :: rest => List.replicate (rowZeroCount r) j ++ whereZeroAux (j + 1) rest

/-- Translation of `get_chr_segment_bins_index` for the `centro_file=None`
path (src lines 97-145): the segment boundaries are
`np.where(fragments == 0)[0]`, the indices of the rows holding a zero cell.
The centromere branch reads an external file and is not needed by the
claims. -/
def get_chr_segment_bins_index (fragments : List FragRow) : List ℕ :=
  whereZeroAux 0 fragments

/-- First-fragment indices of the chromosomes of a fragment table: index 0,
then every index whose chromosome name differs from the previous row's
(chromosomes occupy contiguous runs of rows). -/
def blockStartsAux (prev : String) (j : ℕ) : List FragRow → List ℕ
  | [] => []
  | r :: rest =>
    (if r.chrom = prev then [] else [j]) ++ blockStartsAux r.chrom (j + 1) rest

/-- First-fragment indices of all chromosomes (see `blockStartsAux`). -/
def blockStarts : List FragRow → List ℕ
  | [] => []
  | r :: rest => 0 :: blockStartsAux r.chrom 1 rest

/-- Number of chromosomes of a fragment table, counted as the number of
maximal runs of equal chromosome names; under the table invariant (each
chromosome's fragments are contiguous) runs correspond exactly to
chromosomes. -/
def numChromsAux (prev : String) : List FragRow → ℕ
  | [] => 0
  | r :: rest => (if r.chrom = prev then 0 else 1) + numChromsAux r.chrom rest

/-- Number of chromosomes (see `numChromsAux`). -/
def numChroms : List FragRow → ℕ
  | [] => 0
  | r :: rest => 1 + numChromsAux r.chrom rest

/-- Rows after the first, relative to the previous row `prev`: a row of the
same chromosome continues it (`start_pos = prev.end_pos`, contiguity), a row
of a new chromosome starts at 0; every fragment is nonempty
(`start_pos < end_pos`), starts at a nonnegative position, and has a nonzero
id (the fragment file numbers fragments from 1). -/
def tableInvAux (prev : FragRow) : List FragRow → Bool
  | [] => true
  | r :: rest =>
    (if r.chrom = prev.chrom then decide (r.start_pos = prev.end_pos)
     else decide (r.start_pos = 0)) &&
    decide (r.start_pos < r.end_pos) && decide (0 ≤ r.start_pos) &&
    decide (r.id ≠ 0) && tableInvAux r rest

/-- The FragmentTable invariant of the spec: fragment index 0 of each
chromosome has start position 0, fragments of one chromosome are contiguous
and sorted by start, fragments are nonempty and ids are nonzero. -/
def tableInv : List FragRow → Bool
  | [] => true
  | r :: rest =>
    decide (r.start_pos = 0) && decide (r.start_pos < r.end_pos) &&
    decide (r.id ≠ 0) && tableInvAux r rest

/-- Upper bound on any exponent `k` with `base ^ k ≤ n` (Bernoulli):
for `base > 1`, `base ^ k ≥ 1 + k*(base-1)`, so `k ≤ (n-1)/(base-1)`. -/
def nBinsBound (n base : ℚ) : ℕ :=
  (⌈(n - 1) / (base - 1)⌉).toNat

/-- The largest exponent `k ≤ nBinsBound` with `base ^ k ≤ n`: for
`n ≥ 1 < base` this is `floor(log n / log base)` (theorem
`nBinsAux_eq_floor_log`), computed without real logarithms. -/
def nBinsAux (n base : ℚ) : ℕ :=
  Nat.findGreatest (fun k => base ^ k ≤ n) (nBinsBound n base)

/-- `n_bins = int(np.log(n) / np.log(base) + 1)` of `logbins_xs`
(src line 240), as a computable function: `int` truncation equals floor on
this nonnegative float, and `floor(x + 1) = floor(x) + 1`. -/
def nBins (n base : ℚ) : ℕ :=
  nBinsAux n base + 1

/-- Model of `np.unique` on an integer array: sort, then remove duplicate
values. -/
def npUnique (l : List ℤ) : List ℤ :=
  (List.insertionSort (· ≤ ·) l).dedup

/-- Effective segment length: halved when the chromosome is circular
(`n /= 2`, src lines 238-239). -/
def effectiveLen (n : ℚ) (circular : Bool) : ℚ :=
  if circular then n / 2 else n

/-- Loop body of `logbins_xs` (src lines 234-245):
`np.unique(np.logspace(0, n_bins - 1, num=n_bins, base=base, dtype=np.int))`.
`np.logspace` with integer endpoints and `num = n_bins` evaluates `base ^ k`
for `k = 0, ..., n_bins - 1`; the `dtype=np.int` cast truncates each value
toward zero, which is the floor on these values `≥ 1`. -/
def logbinsSegment (n : ℚ) (base : ℚ) (circular : Bool) : List ℤ :=
  npUnique ((List.range (nBins (effectiveLen n circular) base)).map
    fun k => ⌊base ^ k⌋)

/-- Translation of `logbins_xs` (src lines 201-246): one bin list per
segment length.  In the only caller, `chr_segment_bins` and
`chr_segment_length` have equal lengths, so the loop over
`chr_segment_length` fills the whole output list. -/
def logbins_xs (chr_segment_length : List ℚ) (base : ℚ) (circular : Bool) :
    List (List ℤ) :=
  chr_segment_length.map fun n => logbinsSegment n base circular

/-- Modelled from the words of claim C3 for comparison with the code: the
same pipeline but with each geometric point ROUNDED to the nearest integer
instead of truncated. -/
def logbinsSegmentRound (n : ℚ) (base : ℚ) (circular : Bool) : List ℤ :=
  npUnique ((List.range (nBins (effectiveLen n circular) base)).map
    fun k => round (base ^ k))

/-- Order-preserving deduplication, the spec's "deduplicate while
preserving order": collapse runs of adjacent equal values, keeping the
first of each run.  On a nondecreasing list (equal values adjacent) this is
exactly order-preserving deduplication. -/
def uniqKeepFirst : List ℤ → List ℤ
  | [] => []
  | [a] => [a]
  | a :: b :: rest =>
    if b = a then uniqKeepFirst (a :: rest) else a :: uniqKeepFirst (b :: rest)
termination_by l => l.length

theorem pyIdx_ofNat {n i : ℕ} (h : i < n) : pyIdx n (i : ℤ) = some i := by
  simp [pyIdx, h]

theorem pyGet_ofNat {α : Type} {l : List α} {i : ℕ} (h : i < l.length) :
    pyGet l (i : ℤ) = l.get? i := by
  simp [pyGet, pyIdx_ofNat h]

theorem pyGet_neg_one {α : Type} {l : List α} (h : l ≠ []) :
    pyGet l (-1) = l.getLast? := by
  have hlen : 0 < l.length := List.length_pos.mpr h
  have hidx : pyIdx l.length (-1) = some (l.length - 1) := by
    have h1 : ¬ ((0 : ℤ) ≤ -1 ∧ (-1 : ℤ) < (l.length : ℤ)) := by omega
    have h2 : -((l.length : ℤ)) ≤ -1 ∧ (-1 : ℤ) < 0 := by omega
    simp only [pyIdx, if_neg h1, if_pos h2]
    congr 1
    omega
  rw [pyGet, hidx, Option.some_bind, List.get?_eq_getElem?,
    List.getLast?_eq_getElem?]

theorem List_get?_eq_some_getD {α : Type} (l : List α) (d : α) {i : ℕ}
    (h : i < l.length) : l.get? i = some (l.getD i d) := by
  rw [List.getD_eq_getElem l d h]
  simp [List.get?_eq_getElem?, List.getElem?_eq_getElem h]

/-- Claim C2: for every in-range segment index and every distance
`0 ≤ d ≤ length[i]`, `circular_distance_law` returns `d` when
`d ≤ length[i]/2` and `length[i] - d` otherwise, the result lies in
`[0, length[i]/2]`, and the two documented examples hold. -/
theorem circular_distance_law_spec (d : ℚ) (lengths : List ℚ) (i : ℕ)
    (hi : i < lengths.length) (h0 : 0 ≤ d) (hd : d ≤ lengths.getD i 0) :
    circular_distance_law d lengths (i : ℤ) =
      some (if d ≤ lengths.getD i 0 / 2 then d else lengths.getD i 0 - d) ∧
    (0 ≤ (if d ≤ lengths.getD i 0 / 2 then d else lengths.getD i 0 - d) ∧
      (if d ≤ lengths.getD i 0 / 2 then d else lengths.getD i 0 - d) ≤
        lengths.getD i 0 / 2) ∧
    circular_distance_law 7500 [2800, 9000] 1 = some 1500 ∧
    circular_distance_law 1300 [2800, 9000] 0 = some 1300 := by
  refine ⟨?_, ⟨?_, ?_⟩,
    by norm_num [circular_distance_law, pyGet, pyIdx],
    by norm_num [circular_distance_law, pyGet, pyIdx]⟩
  · rw [circular_distance_law, pyGet_ofNat hi,
      List_get?_eq_some_getD lengths 0 hi]
    simp only [Option.map_some']
    congr 1
    by_cases hcase : d ≤ lengths.getD i 0 / 2
    · rw [if_neg (by linarith), if_pos hcase]
    · rw [if_pos (by linarith [lt_of_not_le hcase]), if_neg hcase]
  · split <;> linarith
  · split <;> linarith

theorem pySet_neg_one {α : Type} {l : List α} (h : l ≠ []) (v : α) :
    pySet l (-1) v = some (l.set (l.length - 1) v) := by
  have hlen : 0 < l.length := List.length_pos.mpr h
  have hidx : pyIdx l.length (-1) = some (l.length - 1) := by
    have h1 : ¬ ((0 : ℤ) ≤ -1 ∧ (-1 : ℤ) < (l.length : ℤ)) := by omega
    have h2 : -((l.length : ℤ)) ≤ -1 ∧ (-1 : ℤ) < 0 := by omega
    simp only [pyIdx, if_neg h1, if_pos h2]
    congr 1
    omega
  rw [pySet, hidx, Option.map_some']

theorem List_set_last {α : Type} (v : α) :
    ∀ (l : List α), l ≠ [] → l.set (l.length - 1) v = l.dropLast ++ [v]
  | [], h => absurd rfl h
  | [_], _ => rfl
  | x :: y :: t, _ => by
    have ih := List_set_last v (y :: t) (by simp)
    have hlen : (x :: y :: t).length - 1 = ((y :: t).length - 1) + 1 := by
      simp
    rw [hlen]
    show x :: (y :: t).set ((y :: t).length - 1) v = (x :: y :: t).dropLast ++ [v]
    rw [ih]
    rfl

/-- Claim C5: a pair whose two strand fields differ is filtered out before
any lookup or increment: `get_pairs_distance` returns the accumulator list
`ps` unchanged. -/
theorem get_pairs_distance_opposite_strands (line : PairLine)
    (fragments : List FragRow) (chr_segment_bins chr_segment_length : List ℚ)
    (xs : List (List ℚ)) (ps : List (List ℤ)) (circular : Bool)
    (h : line.strand1 ≠ line.strand2) :
    get_pairs_distance line fragments chr_segment_bins chr_segment_length
      xs ps circular = some ps := by
  simp [get_pairs_distance, h]

theorem get_pairs_distance_opposite_strands_witness :
    ("+" : String) ≠ "-" ∧
    get_pairs_distance ⟨"r1", "a", 5, "a", 7, "+", "-", 0, 1⟩ [] [] []
      [] [[0]] false = some [[0]] :=
  ⟨by decide,
    get_pairs_distance_opposite_strands _ _ _ _ _ _ _ (by decide)⟩

theorem gpd_eq_tally_minus (line : PairLine) (fragments : List FragRow)
    (bins lens : List ℚ) (xs : List (List ℚ)) (ps : List (List ℤ))
    (circular : Bool) (a b : ℤ)
    (hs1 : line.strand1 = "-") (hs2 : line.strand2 = "-")
    (hseg : fragSeg bins line.frag1 = fragSeg bins line.frag2)
    (ha : seriesGet (fragments.map FragRow.start_pos) line.frag1 = some a)
    (hb : seriesGet (fragments.map FragRow.start_pos) line.frag2 = some b) :
    get_pairs_distance line fragments bins lens xs ps circular =
      tally lens xs ps circular (fragSeg bins line.frag1) |(a : ℚ) - b| := by
  have hss : line.strand1 = line.strand2 := by rw [hs1, hs2]
  simp [get_pairs_distance, hss, hseg, hs1, hs2, ha, hb]

theorem gpd_eq_tally_plus (line : PairLine) (fragments : List FragRow)
    (bins lens : List ℚ) (xs : List (List ℚ)) (ps : List (List ℤ))
    (circular : Bool) (c d : ℤ)
    (hs1 : line.strand1 = "+") (hs2 : line.strand2 = "+")
    (hseg : fragSeg bins line.frag1 = fragSeg bins line.frag2)
    (hc : seriesGet (fragments.map FragRow.end_pos) line.frag1 = some c)
    (hd : seriesGet (fragments.map FragRow.end_pos) line.frag2 = some d) :
    get_pairs_distance line fragments bins lens xs ps circular =
      tally lens xs ps circular (fragSeg bins line.frag1) |(c : ℚ) - d| := by
  have hss : line.strand1 = line.strand2 := by rw [hs1, hs2]
  simp [get_pairs_distance, hss, hseg, hs1, hs2, hc, hd]

theorem tally_underflow (lens : List ℚ) (xs : List (List ℚ))
    (ps : List (List ℤ)) (circular : Bool) (seg : ℤ) (d0 dfold : ℚ)
    (xsTemp : List ℚ) (psRow : List ℤ)
    (hfold : (if circular then circular_distance_law d0 lens seg
      else some d0) = some dfold)
    (hxs : pyGet xs seg = some xsTemp)
    (hcount : searchsortedRight xsTemp dfold = 0)
    (hps : pyGet ps seg = some psRow)
    (hrow : psRow ≠ []) :
    tally lens xs ps circular seg d0 =
      pySet ps seg (psRow.dropLast ++ [psRow.getLast hrow + 1]) := by
  have hgetneg : pyGet psRow (-1) = some (psRow.getLast hrow) := by
    rw [pyGet_neg_one hrow, List.getLast?_eq_getLast psRow hrow]
  have hsetneg : pySet psRow (-1) (psRow.getLast hrow + 1) =
      some (psRow.dropLast ++ [psRow.getLast hrow + 1]) := by
    rw [pySet_neg_one hrow, List_set_last _ _ hrow]
  rw [tally]
  cases circular with
  | false =>
    have hd : d0 = dfold := by simpa using hfold
    subst hd
    simp [hxs, hps, hcount, hgetneg, hsetneg]
  | true =>
    simp only [if_true] at hfold ⊢
    simp [hfold, hxs, hps, hcount, hgetneg, hsetneg]

/-- Claim C7: for a kept pair (equal strands, both fragments resolving to
the same segment, in-range fragment labels) the distance fed to the binning
step `tally` is the absolute difference of the two fragment start positions
when both strands are minus, and of the two fragment end positions when both
strands are plus. -/
theorem get_pairs_distance_distance_formula (line : PairLine)
    (fragments : List FragRow) (bins lens : List ℚ) (xs : List (List ℚ))
    (ps : List (List ℤ)) (circular : Bool) (a b c d : ℤ)
    (hss : line.strand1 = line.strand2)
    (hseg : fragSeg bins line.frag1 = fragSeg bins line.frag2)
    (ha : seriesGet (fragments.map FragRow.start_pos) line.frag1 = some a)
    (hb : seriesGet (fragments.map FragRow.start_pos) line.frag2 = some b)
    (hc : seriesGet (fragments.map FragRow.end_pos) line.frag1 = some c)
    (hd : seriesGet (fragments.map FragRow.end_pos) line.frag2 = some d) :
    get_pairs_distance line fragments bins lens xs ps circular =
      if line.strand1 = "-" then
        tally lens xs ps circular (fragSeg bins line.frag1) |(a : ℚ) - b|
      else if line.strand1 = "+" then
        tally lens xs ps circular (fragSeg bins line.frag1) |(c : ℚ) - d|
      else none := by
  by_cases hm : line.strand1 = "-"
  · have hm2 : line.strand2 = "-" := hss.symm.trans hm
    simp [get_pairs_distance, hss, hseg, hm, hm2, ha, hb]
  · by_cases hp : line.strand1 = "+"
    · have hm2 : line.strand2 ≠ "-" := fun h => hm (hss.trans h)
      have hp2 : line.strand2 = "+" := hss.symm.trans hp
      simp [get_pairs_distance, hss, hseg, hm, hp, hm2, hp2, hc, hd]
    · have hm2 : line.strand2 ≠ "-" := fun h => hm (hss.trans h)
      have hp2 : line.strand2 ≠ "+" := fun h => hp (hss.trans h)
      simp [get_pairs_distance, hss, hseg, hm, hp, hm2, hp2]

theorem get_pairs_distance_distance_formula_witness :
    (("-" : String) = "-" ∧
      fragSeg [0] 0 = fragSeg [0] 1) ∧
    get_pairs_distance ⟨"r1", "a", 10, "a", 120, "-", "-", 0, 1⟩
        [⟨1, "a", 0, 100⟩, ⟨2, "a", 100, 250⟩] [0] [250] [[1, 2, 5]]
        [[0, 0, 0]] false =
      if ("-" : String) = "-" then
        tally [250] [[1, 2, 5]] [[0, 0, 0]] false (fragSeg [0] 0)
          |((0 : ℤ) : ℚ) - (100 : ℤ)|
      else if ("-" : String) = "+" then
        tally [250] [[1, 2, 5]] [[0, 0, 0]] false (fragSeg [0] 0)
          |((100 : ℤ) : ℚ) - (250 : ℤ)|
      else none :=
  ⟨⟨rfl, by norm_num [fragSeg, searchsortedRight, List.countP_cons,
      List.countP_nil]⟩,
    get_pairs_distance_distance_formula
      ⟨"r1", "a", 10, "a", 120, "-", "-", 0, 1⟩
      [⟨1, "a", 0, 100⟩, ⟨2, "a", 100, 250⟩] [0] [250] [[1, 2, 5]]
      [[0, 0, 0]] false 0 100 100 250 rfl
      (by norm_num [fragSeg, searchsortedRight, List.countP_cons,
        List.countP_nil])
      (by norm_num [seriesGet]) (by norm_num [seriesGet])
      (by norm_num [seriesGet]) (by norm_num [seriesGet])⟩

/-- Claim C1 is false on the code: a kept pair whose (possibly
circular-folded) distance lies strictly before the first bin start is not
dropped.  `np.searchsorted(..., side="right") - 1` evaluates to `-1` and the
Python list write `ps[chr_bin1][-1] += 1` increments the LAST bin counter of
the segment.  Concrete counterexample: a same-fragment minus/minus pair has
distance 0, below the first bin start 1, and the accumulator `[[0, 0, 0]]`
becomes `[[0, 0, 1]]` instead of staying unchanged. -/
theorem get_pairs_distance_underflow_counterexample :
    get_pairs_distance ⟨"r1", "a", 10, "a", 20, "-", "-", 0, 0⟩
        [⟨1, "a", 0, 100⟩, ⟨2, "a", 100, 250⟩] [0] [250] [[1, 2, 5]]
        [[0, 0, 0]] false = some [[0, 0, 1]] ∧
    ([[0, 0, 1]] : List (List ℤ)) ≠ [[0, 0, 0]] := by
  constructor
  · norm_num [get_pairs_distance, fragSeg, searchsortedRight, tally, pyGet,
      pySet, pyIdx, seriesGet, circular_distance_law, List.countP_cons,
      List.countP_nil]
    decide
  · decide

/-- Claim C1, amended: for every kept pair (same strands — both minus or
both plus — and same segment) whose computed distance `dfold` (the
strand-appropriate absolute difference, circular-folded when requested)
falls strictly before the first bin start of that segment's bins, the
counter of the LAST bin of that segment's accumulator is incremented
(Python negative indexing of `ps_indice = -1`); the pair is not dropped. -/
theorem get_pairs_distance_underflow_increments_last (line : PairLine)
    (fragments : List FragRow) (bins lens : List ℚ) (xs : List (List ℚ))
    (ps : List (List ℤ)) (circular : Bool) (xsTemp : List ℚ)
    (psRow : List ℤ) (a b c d : ℤ) (x0 dfold : ℚ)
    (hss : line.strand1 = line.strand2)
    (hpm : line.strand1 = "-" ∨ line.strand1 = "+")
    (hseg : fragSeg bins line.frag1 = fragSeg bins line.frag2)
    (ha : seriesGet (fragments.map FragRow.start_pos) line.frag1 = some a)
    (hb : seriesGet (fragments.map FragRow.start_pos) line.frag2 = some b)
    (hc : seriesGet (fragments.map FragRow.end_pos) line.frag1 = some c)
    (hd : seriesGet (fragments.map FragRow.end_pos) line.frag2 = some d)
    (hfold : (if circular then
        circular_distance_law
          (if line.strand1 = "-" then |(a : ℚ) - b| else |(c : ℚ) - d|)
          lens (fragSeg bins line.frag1)
      else some
        (if line.strand1 = "-" then |(a : ℚ) - b| else |(c : ℚ) - d|)) =
          some dfold)
    (hxs : pyGet xs (fragSeg bins line.frag1) = some xsTemp)
    (hsorted : xsTemp.Pairwise (· ≤ ·))
    (hhead : xsTemp.head? = some x0)
    (hlt : dfold < x0)
    (hps : pyGet ps (fragSeg bins line.frag1) = some psRow)
    (hrow : psRow ≠ []) :
    ∃ last, psRow.getLast? = some last ∧
      get_pairs_distance line fragments bins lens xs ps circular =
        pySet ps (fragSeg bins line.frag1) (psRow.dropLast ++ [last + 1]) := by
  have hall : ∀ x ∈ xsTemp, ¬ (x ≤ dfold) := by
    cases xsTemp with
    | nil => intro x hx; simp at hx
    | cons h0 t =>
      have hx0 : h0 = x0 := by simpa using hhead
      subst hx0
      intro x hx
      rcases List.mem_cons.mp hx with rfl | hxt
      · exact not_le.mpr hlt
      · have hle := (List.pairwise_cons.mp hsorted).1 x hxt
        exact not_le.mpr (lt_of_lt_of_le hlt hle)
  have hcount : searchsortedRight xsTemp dfold = 0 := by
    rw [searchsortedRight, List.countP_eq_zero]
    intro x hx
    simpa using hall x hx
  have hlastval : psRow.getLast? = some (psRow.getLast hrow) :=
    List.getLast?_eq_getLast psRow hrow
  refine ⟨psRow.getLast hrow, hlastval, ?_⟩
  rcases hpm with hm | hp
  · have hs2 : line.strand2 = "-" := hss.symm.trans hm
    simp only [if_pos hm] at hfold
    rw [gpd_eq_tally_minus line fragments bins lens xs ps circular a b
      hm hs2 hseg ha hb]
    exact tally_underflow lens xs ps circular (fragSeg bins line.frag1)
      |(a : ℚ) - b| dfold xsTemp psRow hfold hxs hcount hps hrow
  · have hs2 : line.strand2 = "+" := hss.symm.trans hp
    have hne : line.strand1 ≠ "-" := by
      rw [hp]
      decide
    simp only [if_neg hne] at hfold
    rw [gpd_eq_tally_plus line fragments bins lens xs ps circular c d
      hp hs2 hseg hc hd]
    exact tally_underflow lens xs ps circular (fragSeg bins line.frag1)
      |(c : ℚ) - d| dfold xsTemp psRow hfold hxs hcount hps hrow

theorem get_pairs_distance_underflow_increments_last_witness :
    ((("+" : String) = "-") ∨ (("+" : String) = "+")) ∧
    (0 : ℚ) < 1 ∧
    ∃ last, ([0, 0, 0] : List ℤ).getLast? = some last ∧
      get_pairs_distance ⟨"r1", "a", 10, "a", 20, "+", "+", 0, 0⟩
          [⟨1, "a", 0, 100⟩, ⟨2, "a", 100, 250⟩] [0] [250] [[1, 2, 5]]
          [[0, 0, 0]] false =
        pySet [[0, 0, 0]] (fragSeg [0] 0)
          (([0, 0, 0] : List ℤ).dropLast ++ [last + 1]) :=
  ⟨Or.inr rfl, by norm_num,
    get_pairs_distance_underflow_increments_last
      ⟨"r1", "a", 10, "a", 20, "+", "+", 0, 0⟩
      [⟨1, "a", 0, 100⟩, ⟨2, "a", 100, 250⟩] [0] [250] [[1, 2, 5]]
      [[0, 0, 0]] false [1, 2, 5] [0, 0, 0] 0 0 100 100 1 0
      rfl (Or.inr rfl) rfl
      (by norm_num [seriesGet]) (by norm_num [seriesGet])
      (by norm_num [seriesGet]) (by norm_num [seriesGet])
      (by norm_num)
      (by norm_num [pyGet, pyIdx, fragSeg, searchsortedRight,
        List.countP_cons, List.countP_nil])
      (by norm_num [List.pairwise_cons])
      rfl (by norm_num)
      (by norm_num [pyGet, pyIdx, fragSeg, searchsortedRight,
        List.countP_cons, List.countP_nil])
      (by decide)⟩

theorem circular_distance_law_spec_witness :
    (0 : ℚ) ≤ 1300 ∧ (1300 : ℚ) ≤ [(2800 : ℚ), 9000].getD 0 0 ∧
    circular_distance_law 1300 [2800, 9000] (0 : ℕ) =
      some (if (1300 : ℚ) ≤ [(2800 : ℚ), 9000].getD 0 0 / 2 then 1300
            else [(2800 : ℚ), 9000].getD 0 0 - 1300) :=
  ⟨by norm_num, by norm_num,
    (circular_distance_law_spec 1300 [2800, 9000] 0 (by norm_num) (by norm_num)
      (by norm_num)).1⟩

/-- Claim C10: `normalize_distance_law` aborts with no output whenever
`np.shape(xs)` differs from `np.shape(ps)`, and two ragged batches with the
same number of curves but different per-curve lengths both collapse to the
one-dimensional shape `(2,)` and pass the check. -/
theorem normalize_distance_law_shape_guard :
    (∀ xs ps : List (List ℚ), pyShape xs ≠ pyShape ps →
      normalize_distance_law xs ps = none) ∧
    pyShape [[1500, 2500], [1500]] = [2] ∧
    pyShape [[(1 : ℚ), 2], [3]] = [2] ∧
    (normalize_distance_law [[1500, 2500], [1500]]
      [[(1 : ℚ), 2], [3]]).isSome = true := by
  refine ⟨fun xs ps h => by simp [normalize_distance_law, h], ?_, ?_, ?_⟩
  · decide
  · decide
  · decide

theorem normalize_distance_law_shape_guard_witness :
    pyShape [[(1 : ℚ), 2]] ≠ pyShape ([[(1 : ℚ)]]) ∧
    normalize_distance_law [[(1 : ℚ), 2]] [[(1 : ℚ)]] = none :=
  ⟨by decide, normalize_distance_law_shape_guard.1 _ _ (by decide)⟩

theorem foldl_set_map_aux (f : ℚ → ℚ) (idxs : List ℕ) :
    ∀ (a : List (List ℚ)) (x : List ℚ), (∀ i ∈ idxs, i < a.length) →
      idxs.foldl
        (fun acc i => acc.set i ((acc.getD i []).map f)) (a ++ [x]) =
      idxs.foldl (fun acc i => acc.set i ((acc.getD i []).map f)) a ++ [x] := by
  induction idxs with
  | nil => intro a x _; rfl
  | cons i rest ih =>
    intro a x hbound
    have hi : i < a.length := hbound i (List.mem_cons_self i rest)
    have hgetD : (a ++ [x]).getD i [] = a.getD i [] := by
      simp [List.getD_eq_getElem?_getD, List.getElem?_append_left hi]
    have hset : (a ++ [x]).set i ((a.getD i []).map f) =
        a.set i ((a.getD i []).map f) ++ [x] :=
      List.set_append_left _ _ hi
    simp only [List.foldl_cons, hgetD, hset]
    exact ih (a.set i ((a.getD i []).map f)) x
      (fun k hk => by
        rw [List.length_set]
        exact hbound k (List.mem_cons_of_mem i hk))

theorem slope_distance_law_ps_eq_map (ps : List (List ℚ)) :
    slope_distance_law_ps ps =
      ps.map (List.map fun v => if v = 0 then (1 : ℚ) / 10 ^ 9 else v) := by
  induction ps using List.reverseRecOn with
  | nil => rfl
  | append_singleton l x ih =>
    rw [slope_distance_law_ps] at ih ⊢
    rw [List.length_append, List.length_singleton, List.range_succ,
      List.foldl_append, List.foldl_cons, List.foldl_nil,
      foldl_set_map_aux _ _ l x (fun i hi => List.mem_range.mp hi), ih]
    have hlen : (l.map (List.map fun v =>
        if v = 0 then (1 : ℚ) / 10 ^ 9 else v)).length = l.length :=
      List.length_map l _
    have hgetD : ((l.map (List.map fun v =>
        if v = 0 then (1 : ℚ) / 10 ^ 9 else v)) ++ [x]).getD l.length [] =
          x := by
      rw [List.getD_eq_getElem?_getD,
        List.getElem?_append_right (by rw [hlen]), hlen]
      simp
    rw [hgetD, List.set_append_right _ _ (by rw [hlen]), hlen,
      Nat.sub_self, List.map_append]
    rfl

theorem List_map_eq_self_iff {α : Type} (f : α → α) (l : List α) :
    l.map f = l ↔ ∀ x ∈ l, f x = x := by
  induction l with
  | nil => simp
  | cons a t ih =>
    simp only [List.map_cons, List.cons.injEq, ih, List.mem_cons]
    constructor
    · rintro ⟨h1, h2⟩ x hx
      rcases hx with rfl | hx
      · exact h1
      · exact h2 x hx
    · intro h
      exact ⟨h a (Or.inl rfl), fun x hx => h x (Or.inr hx)⟩

/-- Claim C9 is false on the code: `slope_distance_law` does modify the
caller's `ps` arrays.  Its masked assignment `ps[i][ps[i] == 0] = 10**(-9)`
writes in place, so the input `[[0, 1]]` is left as `[[1e-9, 1]]` after the
call, not `[[0, 1]]`. -/
theorem slope_distance_law_mutation_counterexample :
    slope_distance_law_ps [[0, 1]] = [[1 / 10 ^ 9, 1]] ∧
    ([[(1 : ℚ) / 10 ^ 9, 1]] : List (List ℚ)) ≠ [[0, 1]] := by
  constructor
  · rw [slope_distance_law_ps_eq_map]
    norm_num
  · norm_num

/-- Claim C9, amended: `normalize_distance_law` and `average_distance_law`
perform no in-place writes, but `slope_distance_law` mutates the caller's
`ps` arrays: after a call every zero entry of every input curve has been
replaced by 1e-9 and every other entry is unchanged; in particular the
input is left intact if and only if it contained no zero at all. -/
theorem slope_distance_law_mutates_input (ps : List (List ℚ)) :
    slope_distance_law_ps ps =
      ps.map (List.map fun v => if v = 0 then (1 : ℚ) / 10 ^ 9 else v) ∧
    (slope_distance_law_ps ps = ps ↔ ∀ c ∈ ps, ∀ v ∈ c, v ≠ 0) := by
  have hmap := slope_distance_law_ps_eq_map ps
  refine ⟨hmap, ?_⟩
  rw [hmap, List_map_eq_self_iff]
  constructor
  · intro h c hc v hv hv0
    have hc2 := (List_map_eq_self_iff _ c).mp (h c hc) v hv
    rw [if_pos hv0, hv0] at hc2
    norm_num at hc2
  · intro h c hc
    rw [List_map_eq_self_iff]
    intro v hv
    rw [if_neg (h c hc v hv)]

theorem whereZeroAux_eq_blockStartsAux (prev : FragRow) (l : List FragRow) :
    ∀ (j : ℕ), 0 < prev.end_pos → tableInvAux prev l = true →
      whereZeroAux j l = blockStartsAux prev.chrom j l := by
  induction l generalizing prev with
  | nil => intro j _ _; rfl
  | cons r rest ih =>
    intro j hprev hinv
    rw [tableInvAux] at hinv
    simp only [Bool.and_eq_true, decide_eq_true_eq] at hinv
    obtain ⟨⟨⟨⟨hchrom, hlt⟩, hge⟩, hid⟩, hrest⟩ := hinv
    have hendpos : 0 < r.end_pos := lt_of_le_of_lt hge hlt
    rw [whereZeroAux, blockStartsAux]
    by_cases hc : r.chrom = prev.chrom
    · have hstart : r.start_pos = prev.end_pos := by
        simpa [hc] using hchrom
      have hstart_ne : r.start_pos ≠ 0 := by
        rw [hstart]; omega
      have hcount : rowZeroCount r = 0 := by
        rw [rowZeroCount, if_neg hid, if_neg hstart_ne, if_neg (by omega)]
      rw [hcount, if_pos hc, List.replicate_zero, List.nil_append,
        List.nil_append]
      exact ih r (j + 1) hendpos hrest
    · have hstart : r.start_pos = 0 := by
        simpa [hc] using hchrom
      have hcount : rowZeroCount r = 1 := by
        rw [rowZeroCount, if_neg hid, if_pos hstart, if_neg (by omega)]
      rw [hcount, if_neg hc, List.replicate_one]
      rw [List.singleton_append, List.singleton_append]
      congr 1
      exact ih r (j + 1) hendpos hrest

theorem blockStartsAux_length_eq (l : List FragRow) :
    ∀ (prev : String) (j : ℕ),
      (blockStartsAux prev j l).length = numChromsAux prev l := by
  induction l with
  | nil => intro prev j; rfl
  | cons r rest ih =>
    intro prev j
    rw [blockStartsAux, numChromsAux, List.length_append, ih r.chrom (j + 1)]
    by_cases hc : r.chrom = prev
    · rw [if_pos hc, if_pos hc]; rfl
    · rw [if_neg hc, if_neg hc]; rfl

/-- Claim C6: on a fragment table satisfying the table invariant, with no
centromere file, `get_chr_segment_bins_index` returns exactly one boundary
per chromosome, each equal to the index of the first fragment of its
chromosome. -/
theorem get_chr_segment_bins_index_spec (fragments : List FragRow)
    (h : tableInv fragments = true) :
    get_chr_segment_bins_index fragments = blockStarts fragments ∧
    (get_chr_segment_bins_index fragments).length = numChroms fragments := by
  cases fragments with
  | nil => exact ⟨rfl, rfl⟩
  | cons r rest =>
    rw [tableInv] at h
    simp only [Bool.and_eq_true, decide_eq_true_eq] at h
    obtain ⟨⟨⟨hstart, hlt⟩, hid⟩, hrest⟩ := h
    have hcount : rowZeroCount r = 1 := by
      rw [rowZeroCount, if_neg hid, if_pos hstart, if_neg (by omega)]
    have hmain : get_chr_segment_bins_index (r :: rest) =
        blockStarts (r :: rest) := by
      rw [get_chr_segment_bins_index, whereZeroAux, hcount,
        List.replicate_one, List.singleton_append, blockStarts]
      congr 1
      exact whereZeroAux_eq_blockStartsAux r rest 1 (by omega) hrest
    refine ⟨hmain, ?_⟩
    rw [hmain, blockStarts, numChroms, List.length_cons,
      blockStartsAux_length_eq]
    omega

theorem get_chr_segment_bins_index_spec_witness :
    tableInv [⟨1, "a", 0, 100⟩, ⟨2, "a", 100, 250⟩, ⟨1, "b", 0, 50⟩] =
      true ∧
    get_chr_segment_bins_index
        [⟨1, "a", 0, 100⟩, ⟨2, "a", 100, 250⟩, ⟨1, "b", 0, 50⟩] =
      blockStarts [⟨1, "a", 0, 100⟩, ⟨2, "a", 100, 250⟩, ⟨1, "b", 0, 50⟩] ∧
    (get_chr_segment_bins_index
        [⟨1, "a", 0, 100⟩, ⟨2, "a", 100, 250⟩, ⟨1, "b", 0, 50⟩]).length =
      numChroms [⟨1, "a", 0, 100⟩, ⟨2, "a", 100, 250⟩, ⟨1, "b", 0, 50⟩] :=
  ⟨by decide,
    (get_chr_segment_bins_index_spec _ (by decide)).1,
    (get_chr_segment_bins_index_spec _ (by decide)).2⟩

theorem pow_le_imp_le_bound {n base : ℚ} (hb : 1 < base) {k : ℕ}
    (hk : base ^ k ≤ n) : k ≤ nBinsBound n base := by
  have hb0 : 0 < base - 1 := by linarith
  have hbern : 1 + (k : ℚ) * (base - 1) ≤ base ^ k := by
    have h := one_add_mul_le_pow (by linarith : (-2 : ℚ) ≤ base - 1) k
    have hsimp : (1 : ℚ) + (base - 1) = base := by ring
    rwa [hsimp] at h
  have h2 : (k : ℚ) ≤ (n - 1) / (base - 1) := by
    rw [le_div_iff₀ hb0]
    linarith
  have h3 : (k : ℤ) ≤ ⌈(n - 1) / (base - 1)⌉ := by
    have h4 : ((k : ℤ) : ℚ) ≤ ((⌈(n - 1) / (base - 1)⌉ : ℤ) : ℚ) := by
      push_cast
      exact h2.trans (Int.le_ceil _)
    exact_mod_cast h4
  rw [nBinsBound]
  omega

theorem nBinsAux_spec {n base : ℚ} (hb : 1 < base) (hn : 1 ≤ n) :
    base ^ nBinsAux n base ≤ n ∧ n < base ^ (nBinsAux n base + 1) := by
  constructor
  · exact @Nat.findGreatest_spec 0 (fun k => base ^ k ≤ n) _
      (nBinsBound n base) (Nat.zero_le _) (by simpa using hn)
  · by_cases hcase : base ^ (nBinsAux n base + 1) ≤ n
    · have hle : nBinsAux n base + 1 ≤ nBinsBound n base :=
        pow_le_imp_le_bound hb hcase
      exact absurd hcase
        (Nat.findGreatest_is_greatest (Nat.lt_succ_self _) hle)
    · exact not_le.mp hcase

theorem nBinsAux_eq_floor_log {n base : ℚ} (hb : 1 < base) (hn : 1 ≤ n) :
    (nBinsAux n base : ℤ) =
      ⌊Real.log (n : ℝ) / Real.log (base : ℝ)⌋ := by
  obtain ⟨h1, h2⟩ := nBinsAux_spec hb hn
  have hbR : (1 : ℝ) < (base : ℝ) := by exact_mod_cast hb
  have hnR : (1 : ℝ) ≤ (n : ℝ) := by exact_mod_cast hn
  have hlogb : 0 < Real.log (base : ℝ) := Real.log_pos hbR
  have hbpos : (0 : ℝ) < (base : ℝ) := by linarith
  have hnpos : (0 : ℝ) < (n : ℝ) := by linarith
  have hp1 : ((base : ℝ)) ^ nBinsAux n base ≤ (n : ℝ) := by exact_mod_cast h1
  have hp2 : (n : ℝ) < (base : ℝ) ^ (nBinsAux n base + 1) := by
    exact_mod_cast h2
  symm
  rw [Int.floor_eq_iff]
  constructor
  · rw [le_div_iff₀ hlogb]
    have hlog1 : Real.log ((base : ℝ) ^ nBinsAux n base) ≤
        Real.log (n : ℝ) :=
      (Real.log_le_log_iff (pow_pos hbpos _) hnpos).mpr hp1
    rw [Real.log_pow] at hlog1
    push_cast
    exact hlog1
  · rw [div_lt_iff₀ hlogb]
    have hlog2 : Real.log (n : ℝ) <
        Real.log ((base : ℝ) ^ (nBinsAux n base + 1)) :=
      Real.log_lt_log hnpos hp2
    rw [Real.log_pow] at hlog2
    push_cast
    push_cast at hlog2
    linarith

theorem npUnique_eq_dedup {l : List ℤ} (h : l.Pairwise (· ≤ ·)) :
    npUnique l = l.dedup := by
  rw [npUnique, List.Sorted.insertionSort_eq h]

theorem dedup_eq_uniqKeepFirst :
    ∀ {l : List ℤ}, l.Pairwise (· ≤ ·) → l.dedup = uniqKeepFirst l := by
  intro l
  induction l using uniqKeepFirst.induct with
  | case1 => intro _; simp [uniqKeepFirst]
  | case2 a => intro _; simp [uniqKeepFirst]
  | case3 b rest ih =>
    intro hp
    simp only [uniqKeepFirst, if_pos rfl]
    rw [List.dedup_cons_of_mem (List.mem_cons_self b rest)]
    exact ih (List.pairwise_cons.mp hp).2
  | case4 a b rest hne ih =>
    intro hp
    simp only [uniqKeepFirst, if_neg hne]
    have hab : a ≤ b :=
      (List.pairwise_cons.mp hp).1 b (List.mem_cons_self b rest)
    have hnotmem : a ∉ b :: rest := by
      intro hmem
      rcases List.mem_cons.mp hmem with rfl | hmem2
      · exact hne rfl
      · have hba :=
          (List.pairwise_cons.mp (List.pairwise_cons.mp hp).2).1 a hmem2
        exact hne (le_antisymm hab hba).symm
    rw [List.dedup_cons_of_not_mem hnotmem]
    rw [ih (List.pairwise_cons.mp hp).2]

theorem geomPoints_pairwise {base : ℚ} (hb : 1 ≤ base) (m : ℕ) :
    ((List.range m).map fun k => (⌊base ^ k⌋ : ℤ)).Pairwise (· ≤ ·) := by
  refine List.Pairwise.map _ (fun i j hij => ?_) (List.pairwise_lt_range m)
  exact Int.floor_le_floor (pow_le_pow_right₀ hb (le_of_lt hij))

theorem sorted_head?_eq {l : List ℤ} {a : ℤ} (hp : l.Pairwise (· < ·))
    (hmem : a ∈ l) (hall : ∀ x ∈ l, a ≤ x) : l.head? = some a := by
  cases l with
  | nil => simp at hmem
  | cons h t =>
    have hha : a ≤ h := hall h (List.mem_cons_self h t)
    rcases List.mem_cons.mp hmem with rfl | hat
    · rfl
    · have hlt := (List.pairwise_cons.mp hp).1 a hat
      exact absurd hlt (not_lt.mpr hha)

theorem logbins_xs_getD (lengths : List ℚ) (base : ℚ) (circular : Bool)
    {i : ℕ} (hi : i < lengths.length) :
    (logbins_xs lengths base circular).getD i [] =
      logbinsSegment (lengths.getD i 0) base circular := by
  rw [logbins_xs, List.getD_eq_getElem?_getD, List.getElem?_map,
    List.getElem?_eq_getElem hi]
  simp only [Option.map_some', Option.getD_some]
  rw [List.getD_eq_getElem lengths 0 hi]

/-- Claim C4: for every base > 1 and segment length ≥ 1, non-circular, the
LogBins list produced by `logbins_xs` for that segment is strictly
increasing and its first element is 1 (= base^0). -/
theorem logbins_xs_strict_mono_head (lengths : List ℚ) (base : ℚ) (i : ℕ)
    (hb : 1 < base) (hi : i < lengths.length) (hn : 1 ≤ lengths.getD i 0) :
    ((logbins_xs lengths base false).getD i []).Pairwise (· < ·) ∧
    ((logbins_xs lengths base false).getD i []).head? = some 1 := by
  rw [logbins_xs_getD lengths base false hi]
  have hunfold : logbinsSegment (lengths.getD i 0) base false =
      npUnique ((List.range (nBins (lengths.getD i 0) base)).map
        fun k => (⌊base ^ k⌋ : ℤ)) := rfl
  rw [hunfold]
  have hpw : ((List.range (nBins (lengths.getD i 0) base)).map
      fun k => (⌊base ^ k⌋ : ℤ)).Pairwise (· ≤ ·) :=
    geomPoints_pairwise hb.le _
  have hsorted : (npUnique ((List.range (nBins (lengths.getD i 0) base)).map
      fun k => (⌊base ^ k⌋ : ℤ))).Pairwise (· ≤ ·) := by
    rw [npUnique]
    exact List.Pairwise.sublist (List.dedup_sublist _)
      (List.sorted_insertionSort _ _)
  have hnodup : (npUnique ((List.range (nBins (lengths.getD i 0) base)).map
      fun k => (⌊base ^ k⌋ : ℤ))).Nodup := by
    rw [npUnique]
    exact List.nodup_dedup _
  have hstrict : (npUnique ((List.range (nBins (lengths.getD i 0) base)).map
      fun k => (⌊base ^ k⌋ : ℤ))).Pairwise (· < ·) :=
    (hsorted.and hnodup).imp fun h => lt_of_le_of_ne h.1 h.2
  refine ⟨hstrict, ?_⟩
  have hmem_iff : ∀ x : ℤ,
      x ∈ npUnique ((List.range (nBins (lengths.getD i 0) base)).map
        fun k => (⌊base ^ k⌋ : ℤ)) ↔
      x ∈ (List.range (nBins (lengths.getD i 0) base)).map
        fun k => (⌊base ^ k⌋ : ℤ) := by
    intro x
    rw [npUnique, List.mem_dedup,
      (List.perm_insertionSort (· ≤ ·) _).mem_iff]
  have h1mem : (1 : ℤ) ∈ npUnique
      ((List.range (nBins (lengths.getD i 0) base)).map
        fun k => (⌊base ^ k⌋ : ℤ)) := by
    rw [hmem_iff]
    refine List.mem_map.mpr ⟨0, ?_, ?_⟩
    · exact List.mem_range.mpr (Nat.succ_pos _)
    · norm_num
  have hge : ∀ x ∈ npUnique
      ((List.range (nBins (lengths.getD i 0) base)).map
        fun k => (⌊base ^ k⌋ : ℤ)), (1 : ℤ) ≤ x := by
    intro x hx
    rw [hmem_iff] at hx
    obtain ⟨k, -, rfl⟩ := List.mem_map.mp hx
    have h1k : (1 : ℚ) ≤ base ^ k := by
      calc (1 : ℚ) = base ^ 0 := (pow_zero base).symm
        _ ≤ base ^ k := pow_le_pow_right₀ hb.le (Nat.zero_le k)
    exact Int.le_floor.mpr (by exact_mod_cast h1k)
  exact sorted_head?_eq hstrict h1mem hge

theorem logbins_xs_strict_mono_head_witness :
    (1 : ℚ) < 2 ∧ 0 < [(9 : ℚ)].length ∧ 1 ≤ [(9 : ℚ)].getD 0 0 ∧
    (((logbins_xs [(9 : ℚ)] 2 false).getD 0 []).Pairwise (· < ·) ∧
      ((logbins_xs [(9 : ℚ)] 2 false).getD 0 []).head? = some 1) :=
  ⟨by norm_num, by norm_num, by norm_num,
    logbins_xs_strict_mono_head [(9 : ℚ)] 2 0 (by norm_num) (by norm_num)
      (by norm_num)⟩

/-- Claim C3 is false on the code as regards rounding: the
`dtype=np.int` cast in `np.logspace` truncates each geometric point toward
zero instead of rounding it to the nearest integer.  At segment length 2
and base 1.1 the truncated pipeline of the source yields `[1]` while the
claim's round-to-nearest pipeline yields `[1, 2]` (the point
`1.1^7 = 1.9487...` truncates to 1 but rounds to 2). -/
theorem logbins_rounding_counterexample :
    logbinsSegment 2 (11 / 10) false ≠ logbinsSegmentRound 2 (11 / 10) false ∧
    logbinsSegment 2 (11 / 10) false = [1] ∧
    logbinsSegmentRound 2 (11 / 10) false = [1, 2] := by
  have hbound : nBinsBound 2 (11 / 10) = 10 := by
    rw [nBinsBound,
      show ((2 : ℚ) - 1) / ((11 / 10 : ℚ) - 1) = ((10 : ℤ) : ℚ) by norm_num,
      Int.ceil_intCast]
    rfl
  have haux : nBinsAux 2 (11 / 10) = 7 := by
    rw [nBinsAux, hbound]
    simp only [Nat.findGreatest_succ, Nat.findGreatest_zero]
    norm_num
  have hm : nBins (effectiveLen 2 false) (11 / 10) = 8 := by
    show nBins 2 (11 / 10) = 8
    rw [nBins, haux]
  have hrange : List.range 8 = [0, 1, 2, 3, 4, 5, 6, 7] := rfl
  have f0 : (⌊((11 : ℚ) / 10) ^ 0⌋ : ℤ) = 1 := by norm_num
  have f1 : (⌊((11 : ℚ) / 10) ^ 1⌋ : ℤ) = 1 := by
    rw [Int.floor_eq_iff] <;> norm_num
  have f2 : (⌊((11 : ℚ) / 10) ^ 2⌋ : ℤ) = 1 := by
    rw [Int.floor_eq_iff] <;> norm_num
  have f3 : (⌊((11 : ℚ) / 10) ^ 3⌋ : ℤ) = 1 := by
    rw [Int.floor_eq_iff] <;> norm_num
  have f4 : (⌊((11 : ℚ) / 10) ^ 4⌋ : ℤ) = 1 := by
    rw [Int.floor_eq_iff] <;> norm_num
  have f5 : (⌊((11 : ℚ) / 10) ^ 5⌋ : ℤ) = 1 := by
    rw [Int.floor_eq_iff] <;> norm_num
  have f6 : (⌊((11 : ℚ) / 10) ^ 6⌋ : ℤ) = 1 := by
    rw [Int.floor_eq_iff] <;> norm_num
  have f7 : (⌊((11 : ℚ) / 10) ^ 7⌋ : ℤ) = 1 := by
    rw [Int.floor_eq_iff] <;> norm_num
  have r0 : (round (((11 : ℚ) / 10) ^ 0) : ℤ) = 1 := by norm_num
  have r1 : (round (((11 : ℚ) / 10) ^ 1) : ℤ) = 1 := by
    rw [round_eq, Int.floor_eq_iff] <;> norm_num
  have r2 : (round (((11 : ℚ) / 10) ^ 2) : ℤ) = 1 := by
    rw [round_eq, Int.floor_eq_iff] <;> norm_num
  have r3 : (round (((11 : ℚ) / 10) ^ 3) : ℤ) = 1 := by
    rw [round_eq, Int.floor_eq_iff] <;> norm_num
  have r4 : (round (((11 : ℚ) / 10) ^ 4) : ℤ) = 1 := by
    rw [round_eq, Int.floor_eq_iff] <;> norm_num
  have r5 : (round (((11 : ℚ) / 10) ^ 5) : ℤ) = 2 := by
    rw [round_eq, Int.floor_eq_iff] <;> norm_num
  have r6 : (round (((11 : ℚ) / 10) ^ 6) : ℤ) = 2 := by
    rw [round_eq, Int.floor_eq_iff] <;> norm_num
  have r7 : (round (((11 : ℚ) / 10) ^ 7) : ℤ) = 2 := by
    rw [round_eq, Int.floor_eq_iff] <;> norm_num
  have hpts : (List.range (nBins (effectiveLen 2 false) (11 / 10))).map
      (fun k => (⌊((11 : ℚ) / 10) ^ k⌋ : ℤ)) = [1, 1, 1, 1, 1, 1, 1, 1] := by
    rw [hm, hrange]
    simp only [List.map_cons, List.map_nil]
    rw [f0, f1, f2, f3, f4, f5, f6, f7]
  have hptsR : (List.range (nBins (effectiveLen 2 false) (11 / 10))).map
      (fun k => (round (((11 : ℚ) / 10) ^ k) : ℤ)) =
        [1, 1, 1, 1, 1, 2, 2, 2] := by
    rw [hm, hrange]
    simp only [List.map_cons, List.map_nil]
    rw [r0, r1, r2, r3, r4, r5, r6, r7]
  have htrunc : logbinsSegment 2 (11 / 10) false = [1] := by
    rw [logbinsSegment, hpts]
    decide
  have hround : logbinsSegmentRound 2 (11 / 10) false = [1, 2] := by
    rw [logbinsSegmentRound, hptsR]
    decide
  refine ⟨?_, htrunc, hround⟩
  rw [htrunc, hround]
  decide

/-- Claim C3, amended: for every base > 1 and every segment length whose
effective length (halved when circular) is at least 1, `logbins_xs`
computes `n_bins = floor(log n / log base) + 1` bins, generates that many
points of the geometric sequence `base^0 .. base^(n_bins-1)`, TRUNCATES
each point toward zero (the `dtype=np.int` cast; floor on these values),
and deduplicates while preserving order. -/
theorem logbins_xs_algorithm (lengths : List ℚ) (base : ℚ) (circular : Bool)
    (i : ℕ) (hb : 1 < base) (hi : i < lengths.length)
    (hn : 1 ≤ effectiveLen (lengths.getD i 0) circular) :
    ((nBins (effectiveLen (lengths.getD i 0) circular) base : ℤ) =
      ⌊Real.log ((effectiveLen (lengths.getD i 0) circular : ℚ) : ℝ) /
        Real.log ((base : ℚ) : ℝ)⌋ + 1) ∧
    (logbins_xs lengths base circular).getD i [] =
      uniqKeepFirst
        ((List.range
          (nBins (effectiveLen (lengths.getD i 0) circular) base)).map
            fun k => ⌊base ^ k⌋) := by
  constructor
  · rw [nBins]
    push_cast
    rw [nBinsAux_eq_floor_log hb hn]
  · rw [logbins_xs_getD lengths base circular hi, logbinsSegment,
      npUnique_eq_dedup (geomPoints_pairwise hb.le _),
      dedup_eq_uniqKeepFirst (geomPoints_pairwise hb.le _)]

theorem logbins_xs_algorithm_witness :
    (1 : ℚ) < 2 ∧ 0 < [(9 : ℚ)].length ∧
    1 ≤ effectiveLen ([(9 : ℚ)].getD 0 0) false ∧
    (((nBins (effectiveLen ([(9 : ℚ)].getD 0 0) false) 2 : ℤ) =
      ⌊Real.log ((effectiveLen ([(9 : ℚ)].getD 0 0) false : ℚ) : ℝ) /
        Real.log (((2 : ℚ) : ℚ) : ℝ)⌋ + 1) ∧
    (logbins_xs [(9 : ℚ)] 2 false).getD 0 [] =
      uniqKeepFirst
        ((List.range
          (nBins (effectiveLen ([(9 : ℚ)].getD 0 0) false) 2)).map
            fun k => ⌊(2 : ℚ) ^ k⌋)) :=
  ⟨by norm_num, by norm_num, by norm_num [effectiveLen],
    logbins_xs_algorithm [(9 : ℚ)] 2 false 0 (by norm_num) (by norm_num)
      (by norm_num [effectiveLen])⟩
